import Mathlib

/-!
Shallow embedding of the core of the Ankaios workload orchestrator:
the server state manager (`server_state.rs`), the generic polling state
checker (`generic_polling_state_checker.rs`) and the podman runtime
config conversion (`podman_runtime_config.rs`).

Collaborators that live outside the three source files (the dotted-path
`Object`/`Path` engine, the `DeleteGraph`, the cycle detector, the
`common` object model and the YAML text parser) are modelled from the
specification; each such definition carries a doc comment starting with
`Modelled from the spec:`.
-/

namespace Ankaios

/-- String keys used by the structured-document renderings. -/
def kCurrentState : String := "currentState"

def kStartupState : String := "startupState"

def kWorkloadStates : String := "workloadStates"

def kWorkloads : String := "workloads"

def kConfigs : String := "configs"

def kName : String := "name"

def kAgent : String := "agent"

def kRuntime : String := "runtime"

def kRuntimeConfig : String := "runtimeConfig"

def kDependencies : String := "dependencies"

def kTags : String := "tags"

def kAgentName : String := "agentName"

def kWorkloadName : String := "workloadName"

def kExecutionState : String := "executionState"

/-- Modelled from the spec: the execution states of a workload,
`{Unknown, Pending, Running, Succeeded, Failed, Removed}`; the enum
itself lives in the `common` crate, outside the given sources. -/
inductive ExecutionState where
  | ExecUnknown
  | ExecPending
  | ExecRunning
  | ExecSucceeded
  | ExecFailed
  | ExecRemoved
  deriving DecidableEq

/-- Modelled from the spec: a `WorkloadSpec` (from the `common` crate):
name, agent, runtime selector, opaque runtime config string, the
dependency map (dependency workload-name to a condition tag) and the
free-form tag metadata. Equality is field-wise and drives the
changed-workload detection. -/
structure WorkloadSpec where
  name : String
  agent : String
  runtime : String
  runtimeConfig : String
  dependencies : List (String × String)
  tags : List String
  deriving DecidableEq

/-- Modelled from the spec: a `DeletedWorkload` `{name, agent,
dependencies}`; the dependencies are populated by the delete graph. -/
structure DeletedWorkload where
  name : String
  agent : String
  dependencies : List (String × String)
  deriving DecidableEq

/-- Modelled from the spec: a `State` is a mapping from workload name to
`WorkloadSpec` plus ancillary fields (configs, cron, ...) opaque to the
core; the ancillary part is represented by the `configs` mapping. -/
structure State where
  workloads : List (String × WorkloadSpec)
  configs : List (String × String)
  deriving DecidableEq

/-- Modelled from the spec: a `WorkloadState` report
`{agent_name, workload_name, execution_state}`. -/
structure WorkloadState where
  agentName : String
  workloadName : String
  executionState : ExecutionState
  deriving DecidableEq

/-- Modelled from the spec: a `CompleteState` is the triple
`{current_state, startup_state, workload_states}`. -/
structure CompleteState where
  currentState : State
  startupState : State
  workloadStates : List WorkloadState
  deriving DecidableEq

/-- Association-list lookup by string key (the embedding of map lookup
on the unordered string maps of the data model). -/
def slookup {α : Type} : List (String × α) → String → Option α
  | [], _ => none
  | p :: ps, k => if p.1 = k then some p.2 else slookup ps k

/-- Association-list insert-or-replace keeping positions (the embedding
of map insertion). -/
def sinsert {α : Type} : List (String × α) → String → α → List (String × α)
  | [], k, v => [(k, v)]
  | p :: ps, k, v => if p.1 = k then (k, v) :: ps else p :: sinsert ps k v

/-- Association-list removal of a key (no-op when the key is absent). -/
def serase {α : Type} : List (String × α) → String → List (String × α)
  | [], _ => []
  | p :: ps, k => if p.1 = k then ps else p :: serase ps k

/-- Modelled from the spec: the structured document on which the
field-path dotted-selector engine (`Object`) works: a YAML-like tree of
scalars, sequences and mappings. -/
inductive Yval where
  | str : String → Yval
  | seq : List Yval → Yval
  | map : List (String × Yval) → Yval

/-- The dot character. -/
def dotChar : Char := Char.ofNat 46

/-- Splits a character list at every dot. -/
def splitDotAux : List Char → List Char → List String
  | [], acc => [String.mk acc.reverse]
  | c :: cs, acc =>
      if c = dotChar then String.mk acc.reverse :: splitDotAux cs []
      else splitDotAux cs (c :: acc)

/-- Modelled from the spec: `Path::from(String)` splits a dotted field
selector into its non-empty segments (the empty mask string yields the
empty path, which every engine operation rejects). -/
def pathOfString (s : String) : List String :=
  (splitDotAux s.toList []).filter (fun t => ¬ t.isEmpty)

/-- Modelled from the spec: joining a path back into a dotted string
(the `Path`-to-`String` conversion used in `FieldNotFound` payloads). -/
def stringOfPath (p : List String) : String :=
  String.intercalate (String.mk [dotChar]) p

/-- Parses a path segment as a sequence index: a non-empty string of
decimal digits. -/
def strToIdx (s : String) : Option Nat :=
  match s.toList with
  | [] => none
  | cs =>
      if cs.all Char.isDigit then
        some (cs.foldl (fun n c => n * 10 + (c.toNat - 48)) 0)
      else none

namespace Object

/-- Modelled from the spec: `Object::get`, traversal of the structured
document along the remaining path segments: a segment selects a mapping
key or a sequence index; traversing into a scalar yields nothing. -/
def get : Yval → List String → Option Yval
  | v, [] => some v
  | Yval.map fs, k :: ks => (slookup fs k).bind fun w => get w ks
  | Yval.seq xs, k :: ks => ((strToIdx k).bind (fun i => xs[i]?)).bind fun w => get w ks
  | Yval.str _, _ :: _ => none

/-- Modelled from the spec: the top-level `Object::get` on a full field
path; the empty path selects nothing (it denotes no field). -/
def getTop (v : Yval) (p : List String) : Option Yval :=
  match p with
  | [] => none
  | _ :: _ => get v p

/-- Builds the chain of nested singleton mappings used when `set`
creates missing intermediate levels. -/
def mkNested : List String → Yval → Yval
  | [], x => x
  | k :: ks, x => Yval.map [(k, mkNested ks x)]

/-- Modelled from the spec: `Object::set` writes a value at a dotted
path: it traverses mappings by key (creating missing intermediate
mappings) and sequences by index, and fails when the path traverses
into a scalar, uses an invalid sequence index, or is empty. -/
def set : Yval → List String → Yval → Option Yval
  | _, [], _ => none
  | Yval.map fs, [k], x => some (Yval.map (sinsert fs k x))
  | Yval.map fs, k :: k2 :: ks, x =>
      match slookup fs k with
      | some w => (set w (k2 :: ks) x).map fun w2 => Yval.map (sinsert fs k w2)
      | none => some (Yval.map (sinsert fs k (mkNested (k2 :: ks) x)))
  | Yval.seq xs, [k], x =>
      (strToIdx k).bind fun i =>
        if i < xs.length then some (Yval.seq (xs.set i x)) else none
  | Yval.seq xs, k :: k2 :: ks, x =>
      (strToIdx k).bind fun i => xs[i]?.bind fun w =>
        (set w (k2 :: ks) x).map fun w2 => Yval.seq (xs.set i w2)
  | Yval.str _, _ :: _, _ => none

/-- Modelled from the spec: `Object::remove` deletes the value at a
dotted path: removing an absent final key from a mapping is a no-op,
while an empty path, a path whose intermediate segments cannot be
traversed, or a path into a scalar or an invalid sequence index fails. -/
def remove : Yval → List String → Option Yval
  | _, [] => none
  | Yval.map fs, [k] => some (Yval.map (serase fs k))
  | Yval.map fs, k :: k2 :: ks =>
      (slookup fs k).bind fun w =>
        (remove w (k2 :: ks)).map fun w2 => Yval.map (sinsert fs k w2)
  | Yval.seq xs, [k] =>
      (strToIdx k).bind fun i =>
        if i < xs.length then some (Yval.seq (xs.eraseIdx i)) else none
  | Yval.seq xs, k :: k2 :: ks =>
      (strToIdx k).bind fun i => xs[i]?.bind fun w =>
        (remove w (k2 :: ks)).map fun w2 => Yval.seq (xs.set i w2)
  | Yval.str _, _ :: _ => none

end Object

/-- Serialization of the execution states (variant names of the enum). -/
def execStr : ExecutionState → String
  | ExecutionState.ExecUnknown => "Unknown"
  | ExecutionState.ExecPending => "Pending"
  | ExecutionState.ExecRunning => "Running"
  | ExecutionState.ExecSucceeded => "Succeeded"
  | ExecutionState.ExecFailed => "Failed"
  | ExecutionState.ExecRemoved => "Removed"

/-- Parses an execution state back from its variant name. -/
def execOfStr (s : String) : Option ExecutionState :=
  [ExecutionState.ExecUnknown, ExecutionState.ExecPending,
    ExecutionState.ExecRunning, ExecutionState.ExecSucceeded,
    ExecutionState.ExecFailed, ExecutionState.ExecRemoved].find?
    (fun e => execStr e == s)

/-- Renders a string-to-string mapping as a document node. -/
def strMapObj (m : List (String × String)) : Yval :=
  Yval.map (m.map fun p => (p.1, Yval.str p.2))

/-- Renders a list of strings as a sequence node. -/
def strListObj (l : List String) : Yval :=
  Yval.seq (l.map Yval.str)

/-- Modelled from the spec: the structured-document rendering of a
`WorkloadSpec` (the `TryInto<Object>` serialization of the `common`
object model). -/
def workloadSpecObj (w : WorkloadSpec) : Yval :=
  Yval.map
    [(kName, Yval.str w.name), (kAgent, Yval.str w.agent),
      (kRuntime, Yval.str w.runtime), (kRuntimeConfig, Yval.str w.runtimeConfig),
      (kDependencies, strMapObj w.dependencies), (kTags, strListObj w.tags)]

/-- Modelled from the spec: the structured-document rendering of a
`State`. -/
def stateObj (st : State) : Yval :=
  Yval.map
    [(kWorkloads, Yval.map (st.workloads.map fun p => (p.1, workloadSpecObj p.2))),
      (kConfigs, strMapObj st.configs)]

/-- Modelled from the spec: the structured-document rendering of a
`WorkloadState`. -/
def workloadStateObj (ws : WorkloadState) : Yval :=
  Yval.map
    [(kAgentName, Yval.str ws.agentName), (kWorkloadName, Yval.str ws.workloadName),
      (kExecutionState, Yval.str (execStr ws.executionState))]

/-- Modelled from the spec: the structured-document rendering of a
`CompleteState` (the infallible `TryInto<Object>` direction). -/
def toObj (cs : CompleteState) : Yval :=
  Yval.map
    [(kCurrentState, stateObj cs.currentState),
      (kStartupState, stateObj cs.startupState),
      (kWorkloadStates, Yval.seq (cs.workloadStates.map workloadStateObj))]

/-- Parses a scalar string node. -/
def parseStr : Yval → Option String
  | Yval.str s => some s
  | _ => none

/-- Parses every element of a list, failing when any element fails. -/
def parseList {α : Type} (p : Yval → Option α) : List Yval → Option (List α)
  | [] => some []
  | v :: vs => (p v).bind fun a => (parseList p vs).map fun as_ => a :: as_

/-- Parses every value of a keyed list, failing when any value fails. -/
def parsePairs {α : Type} (p : Yval → Option α) :
    List (String × Yval) → Option (List (String × α))
  | [] => some []
  | q :: qs =>
      (p q.2).bind fun a => (parsePairs p qs).map fun as_ => (q.1, a) :: as_

/-- Parses a string-to-string mapping node. -/
def parseStrMap : Yval → Option (List (String × String))
  | Yval.map fs => parsePairs parseStr fs
  | _ => none

/-- Parses a sequence-of-strings node. -/
def parseStrList : Yval → Option (List String)
  | Yval.seq xs => parseList parseStr xs
  | _ => none

/-- Modelled from the spec: the serde field discipline of the parse-back
direction: a missing field takes its default, a present field must have
the right shape, unknown fields are ignored. -/
def fieldOr {α : Type} (fs : List (String × Yval)) (k : String) (dflt : α)
    (p : Yval → Option α) : Option α :=
  match slookup fs k with
  | none => some dflt
  | some v => p v

/-- Modelled from the spec: parsing a `WorkloadSpec` back from its
document rendering. -/
def parseWorkloadSpec : Yval → Option WorkloadSpec
  | Yval.map fs =>
      (fieldOr fs kName ("") parseStr).bind fun name =>
      (fieldOr fs kAgent ("") parseStr).bind fun agent =>
      (fieldOr fs kRuntime ("") parseStr).bind fun runtime =>
      (fieldOr fs kRuntimeConfig ("") parseStr).bind fun runtimeConfig =>
      (fieldOr fs kDependencies [] parseStrMap).bind fun dependencies =>
      (fieldOr fs kTags [] parseStrList).map fun tags =>
      ⟨name, agent, runtime, runtimeConfig, dependencies, tags⟩
  | _ => none

/-- Parses the workload mapping of a `State`. -/
def parseWorkloadMap : Yval → Option (List (String × WorkloadSpec))
  | Yval.map fs => parsePairs parseWorkloadSpec fs
  | _ => none

/-- Modelled from the spec: parsing a `State` back from its document
rendering. -/
def parseState : Yval → Option State
  | Yval.map fs =>
      (fieldOr fs kWorkloads [] parseWorkloadMap).bind fun workloads =>
      (fieldOr fs kConfigs [] parseStrMap).map fun configs =>
      ⟨workloads, configs⟩
  | _ => none

/-- Modelled from the spec: parsing a `WorkloadState` back from its
document rendering. -/
def parseWorkloadState : Yval → Option WorkloadState
  | Yval.map fs =>
      (fieldOr fs kAgentName ("") parseStr).bind fun agentName =>
      (fieldOr fs kWorkloadName ("") parseStr).bind fun workloadName =>
      (fieldOr fs kExecutionState (ExecutionState.ExecUnknown)
          (fun v => (parseStr v).bind execOfStr)).map fun executionState =>
      ⟨agentName, workloadName, executionState⟩
  | _ => none

/-- Parses the workload-state sequence of a `CompleteState`. -/
def parseWorkloadStates : Yval → Option (List WorkloadState)
  | Yval.seq xs => parseList parseWorkloadState xs
  | _ => none

/-- Modelled from the spec: the fallible `TryInto<CompleteState>`
parse-back of a structured document. -/
def completeStateOfObj : Yval → Option CompleteState
  | Yval.map fs =>
      (fieldOr fs kCurrentState (State.mk [] []) parseState).bind fun cur =>
      (fieldOr fs kStartupState (State.mk [] []) parseState).bind fun startup =>
      (fieldOr fs kWorkloadStates [] parseWorkloadStates).map fun wss =>
      ⟨cur, startup, wss⟩
  | _ => none

/-- The error type of `ServerState::update` (`server_state.rs`,
lines 116-121). -/
inductive UpdateStateError where
  | FieldNotFound : String → UpdateStateError
  | ResultInvalid : String → UpdateStateError
  | CycleInDependencies : String → UpdateStateError
  deriving DecidableEq

/-- The `ResultInvalid` message of `update_state` (line 63). -/
def msgCouldNotParse : String := "Could not parse into CompleteState."

/-- The error string produced when the projection in
`get_complete_state_by_field_mask` cannot write a field (the `?` on
`return_state.set`, line 172; the text stands for the engine's message). -/
def msgEntrySetFailed : String := "Could not set field in result."

/-- The error-string prefix of the parse failure in
`get_complete_state_by_field_mask` (line 186). -/
def msgResultInvalid : String := "The result for CompleteState is invalid."

/-- The field-mask loop of `update_state` (`server_state.rs`,
lines 48-57): for each field of the mask in order, when the field is
present in the state from the update its value is set in the working
copy of the current state, otherwise the field is removed from it; a
failing set or remove aborts the whole update with `FieldNotFound`. -/
def updateStateLoop (stateFromUpdate : Yval) : Yval → List String → Except UpdateStateError Yval
  | newState, [] => Except.ok newState
  | newState, f :: fs =>
      let p := pathOfString f
      match Object.getTop stateFromUpdate p with
      | some fieldFromUpdate =>
          match Object.set newState p fieldFromUpdate with
          | some newState2 => updateStateLoop stateFromUpdate newState2 fs
          | none => Except.error (UpdateStateError.FieldNotFound (stringOfPath p))
      | none =>
          match Object.remove newState p with
          | some newState2 => updateStateLoop stateFromUpdate newState2 fs
          | none => Except.error (UpdateStateError.FieldNotFound (stringOfPath p))

/-- The function `update_state` (`server_state.rs`, lines 30-66): an empty update
mask replaces the whole state; otherwise both states are rendered as
structured documents, the mask is applied field by field, and the
merged document is parsed back (`ResultInvalid` on parse failure).
The renderings of well-typed states are infallible in the model, so the
two `Failed to parse` branches of the source cannot trigger. -/
def update_state (currentState updatedState : CompleteState)
    (updateMask : List String) : Except UpdateStateError CompleteState :=
  if updateMask.isEmpty then Except.ok updatedState
  else
    match updateStateLoop (toObj updatedState) (toObj currentState) updateMask with
    | Except.error e => Except.error e
    | Except.ok merged =>
        match completeStateOfObj merged with
        | some cs => Except.ok cs
        | none => Except.error (UpdateStateError.ResultInvalid msgCouldNotParse)

/-- The added list built by `extract_added_and_deleted_workloads`
(`server_state.rs`, lines 76-107): the first pass collects the new spec
of every changed workload of the current state, the second pass the
specs only present in the new state. -/
def addedWorkloadsOf (currentState newState : State) : List WorkloadSpec :=
  (currentState.workloads.filterMap fun p =>
    match slookup newState.workloads p.1 with
    | some nw => if p.2 ≠ nw then some nw else none
    | none => none) ++
  ((newState.workloads.filter fun q =>
    (slookup currentState.workloads q.1).isNone).map Prod.snd)

/-- The deleted list built by `extract_added_and_deleted_workloads`
(`server_state.rs`, lines 76-96): one entry (old agent, name) for every
changed or removed workload of the current state. -/
def deletedWorkloadsOf (currentState newState : State) : List DeletedWorkload :=
  currentState.workloads.filterMap fun p =>
    match slookup newState.workloads p.1 with
    | some nw => if p.2 ≠ nw then some ⟨p.1, p.2.agent, []⟩ else none
    | none => some ⟨p.1, p.2.agent, []⟩

/-- The function `extract_added_and_deleted_workloads` (`server_state.rs`,
lines 68-114): builds both lists and returns `none` when both are
empty. -/
def extract_added_and_deleted_workloads (currentState newState : State) :
    Option (List WorkloadSpec × List DeletedWorkload) :=
  let addedWorkloads := addedWorkloadsOf currentState newState
  let deletedWorkloads := deletedWorkloadsOf currentState newState
  if addedWorkloads.isEmpty && deletedWorkloads.isEmpty then none
  else some (addedWorkloads, deletedWorkloads)

/-- Modelled from the spec: the `DeleteGraph` records, for each
workload, the conditions its dependents registered against it; an edge
`(dep, dependent, condition)` says `dependent` needs `dep` to reach
`condition` before `dep` may be torn down. -/
structure DeleteGraph where
  edges : List (String × String × String)
  deriving DecidableEq

/-- Modelled from the spec: `DeleteGraph::insert` records the edges
`dep → (w.name, condition)` of every added workload; recording the same
edges twice has no effect (insert is idempotent on equal inputs). -/
def DeleteGraph.insert (g : DeleteGraph) (added : List WorkloadSpec) : DeleteGraph :=
  ⟨(g.edges ++
      (added.map fun w => w.dependencies.map fun d => (d.1, w.name, d.2)).flatten).dedup⟩

/-- Modelled from the spec: the annotation of one deleted workload with
the conditions the graph registered against its name; the name and
agent fields are untouched. -/
def DeleteGraph.annotate (g : DeleteGraph) (d : DeletedWorkload) : DeletedWorkload :=
  { d with dependencies := (g.edges.filter fun e => e.1 == d.name).map fun e => e.2 }

/-- Modelled from the spec: `apply_delete_conditions_to` populates each
deleted workload's dependencies with the conditions registered against
its name, and clears the edges pertaining to the deleted workloads. -/
def DeleteGraph.applyDeleteConditionsTo (g : DeleteGraph)
    (deleted : List DeletedWorkload) : DeleteGraph × List DeletedWorkload :=
  let annotated := deleted.map g.annotate
  let remaining := g.edges.filter fun e => !(deleted.any fun d => d.name == e.1)
  (⟨remaining⟩, annotated)

/-- Modelled from the spec: `cycle_check::dfs` explores the dependency
edges depth-first from a node, keeping the current traversal stack, and
returns the name of a node revisited while still on the stack. -/
def dfsVisit (wls : List (String × WorkloadSpec)) :
    Nat → List String → String → Option String
  | 0, _, _ => none
  | fuel + 1, stack, n =>
      if n ∈ stack then some n
      else
        match slookup wls n with
        | none => none
        | some w =>
            (w.dependencies.map Prod.fst).findSome? fun d =>
              dfsVisit wls fuel (n :: stack) d

/-- Modelled from the spec: `cycle_check::dfs(state, Some(roots))`
starts the depth-first search from the given roots and reports some
workload of a dependency cycle, if one is reached. -/
def cycleCheckDfs (st : State) (startNodes : List String) : Option String :=
  startNodes.findSome? fun n => dfsVisit st.workloads (st.workloads.length + 2) [] n

/-- The struct `ServerState` (`server_state.rs`, lines 143-147): the stored
`CompleteState` and the delete graph. -/
structure ServerState where
  state : CompleteState
  deleteGraph : DeleteGraph
  deriving DecidableEq

/-- The result alias of `ServerState::update` (line 149). -/
def AddedDeletedWorkloads : Type :=
  Option (List WorkloadSpec × List DeletedWorkload)

instance : DecidableEq AddedDeletedWorkloads := by
  unfold AddedDeletedWorkloads
  infer_instance

/-- The method `ServerState::update` (`server_state.rs`, lines 204-254), as a pure
transition: the returned triple is the call's result, the server state
after the call, and whether the line `self.delete_graph.insert(...)`
was reached during the call. -/
def ServerState.update (ss : ServerState) (newState : CompleteState)
    (updateMask : List String) :
    Except UpdateStateError AddedDeletedWorkloads × ServerState × Bool :=
  match update_state ss.state newState updateMask with
  | Except.error e => (Except.error e, ss, false)
  | Except.ok merged =>
      match extract_added_and_deleted_workloads ss.state.currentState
          merged.currentState with
      | none => (Except.ok none, ss, false)
      | some (addedWorkloads, deletedWorkloads) =>
          let startNodes :=
            (addedWorkloads.filter fun w => !w.dependencies.isEmpty).map
              (fun w => w.name)
          match cycleCheckDfs merged.currentState startNodes with
          | some cyc => (Except.error (UpdateStateError.CycleInDependencies cyc), ss, false)
          | none =>
              let g2 := ss.deleteGraph.insert addedWorkloads
              let gd := g2.applyDeleteConditionsTo deletedWorkloads
              (Except.ok (some (addedWorkloads, gd.2)), ⟨merged, gd.1⟩, true)

/-- The projection loop of `get_complete_state_by_field_mask`
(`server_state.rs`, lines 170-183): fields present in the rendered view
are copied into the result document (a failing write escalates through
the `?` operator), absent fields are silently skipped. -/
def projLoop (source : Yval) : Yval → List String → Except String Yval
  | acc, [] => Except.ok acc
  | acc, f :: fs =>
      let p := pathOfString f
      match Object.getTop source p with
      | some v =>
          match Object.set acc p v with
          | some acc2 => projLoop source acc2 fs
          | none => Except.error msgEntrySetFailed
      | none => projLoop source acc fs

/-- The method `ServerState::get_complete_state_by_field_mask` (`server_state.rs`,
lines 153-191): builds the view from the stored current and startup
states and the workload-state snapshot; an empty mask returns the whole
view; otherwise the masked fields are projected into a fresh document
which is parsed back into a `CompleteState`. -/
def ServerState.get_complete_state_by_field_mask (ss : ServerState)
    (fieldMask : List String) (workloadStateDb : List WorkloadState) :
    Except String CompleteState :=
  let currentCompleteState : CompleteState :=
    ⟨ss.state.currentState, ss.state.startupState, workloadStateDb⟩
  if fieldMask.isEmpty then Except.ok currentCompleteState
  else
    match projLoop (toObj currentCompleteState) (Yval.map []) fieldMask with
    | Except.error e => Except.error e
    | Except.ok r =>
        match completeStateOfObj r with
        | some cs => Except.ok cs
        | none => Except.error msgResultInvalid

/-- The method `ServerState::get_workloads_for_agent` (`server_state.rs`,
lines 193-202): the workload specs of the current state whose agent
equals the given agent name. -/
def ServerState.get_workloads_for_agent (ss : ServerState)
    (agentName : String) : List WorkloadSpec :=
  (ss.state.currentState.workloads.map Prod.snd).filter fun w =>
    w.agent == agentName

/-- One observable step of the polling loop spawned by
`GenericPollingStateChecker::start_checker`: a poll of the runtime
state getter, or a batch sent on the sink towards the server. -/
inductive CheckerEvent where
  | poll : ExecutionState → CheckerEvent
  | send : List WorkloadState → CheckerEvent
  deriving DecidableEq

/-- The polling loop body of `generic_polling_state_checker.rs`
(lines 38-64), over the finite sequence of states the getter returns on
the successive ticks: every iteration polls once; when the polled state
differs from `lastState` the loop updates `lastState`, sends the
single-element batch, and breaks if the state just reported is
`Removed`; otherwise it continues without sending. -/
def checkerLoop (spec : WorkloadSpec) :
    ExecutionState → List ExecutionState → List CheckerEvent
  | _, [] => []
  | lastState, s :: rest =>
      CheckerEvent.poll s ::
        (if s ≠ lastState then
          CheckerEvent.send [⟨spec.agent, spec.name, s⟩] ::
            (if s = ExecutionState.ExecRemoved then []
              else checkerLoop spec s rest)
        else checkerLoop spec lastState rest)

/-- The method `GenericPollingStateChecker::start_checker`
(`generic_polling_state_checker.rs`, lines 27-71): the spawned loop
starts with `last_state = ExecUnknown`. -/
def start_checker (spec : WorkloadSpec) (obs : List ExecutionState) :
    List CheckerEvent :=
  checkerLoop spec ExecutionState.ExecUnknown obs

/-- The batches sent on the sink during a checker trace. -/
def sentBatches (t : List CheckerEvent) : List (List WorkloadState) :=
  t.filterMap fun e =>
    match e with
    | CheckerEvent.send b => some b
    | _ => none

/-- The number of getter polls in a checker trace. -/
def pollCount (t : List CheckerEvent) : Nat :=
  (t.filter fun e =>
    match e with
    | CheckerEvent.poll _ => true
    | _ => false).length

/-- Modelled from the spec: `PODMAN_RUNTIME_NAME`, the runtime selector
string of the podman runtime (declared in `podman_runtime.rs`, outside
the given sources). -/
def PODMAN_RUNTIME_NAME : String := "podman"

/-- The struct `PodmanRuntimeConfig` (`podman_runtime_config.rs`, lines 5-14). -/
structure PodmanRuntimeConfig where
  general_options : Option (List String)
  command_options : Option (List String)
  image : String
  command_args : Option (List String)
  deriving DecidableEq

/-- The snake-case and camel-case keys of the podman config fields. -/
def kImage : String := "image"

def kGeneralOptionsSnake : String := "general_options"

def kGeneralOptionsCamel : String := "generalOptions"

def kCommandOptionsSnake : String := "command_options"

def kCommandOptionsCamel : String := "commandOptions"

def kCommandArgsSnake : String := "command_args"

def kCommandArgsCamel : String := "commandArgs"

/-- Modelled from the spec: the serde treatment of an optional
`Vec<String>` field with a camel-case alias: absent under both names
gives `None`, present under exactly one name must be a sequence of
strings, present under both names is a duplicate-field error. -/
def optAliasField (fs : List (String × Yval)) (snake camel : String) :
    Option (Option (List String)) :=
  match slookup fs snake, slookup fs camel with
  | some v, none => (parseStrList v).map some
  | none, some v => (parseStrList v).map some
  | none, none => some none
  | some _, some _ => none

/-- Modelled from the spec: the derived serde deserializer of
`PodmanRuntimeConfig` at the document level: the document must be a
mapping with a string field `image`; the three option fields are
optional and accepted under their camel-case aliases. -/
def podmanDeserialize (d : Yval) : Option PodmanRuntimeConfig :=
  match d with
  | Yval.map fs =>
      ((slookup fs kImage).bind parseStr).bind fun image =>
      (optAliasField fs kGeneralOptionsSnake kGeneralOptionsCamel).bind fun g =>
      (optAliasField fs kCommandOptionsSnake kCommandOptionsCamel).bind fun co =>
      (optAliasField fs kCommandArgsSnake kCommandArgsCamel).map fun ca =>
      ⟨g, co, image, ca⟩
  | _ => none

/-- The wrong-runtime error text of `PodmanRuntimeConfig::try_from`
(`podman_runtime_config.rs`, lines 22-27). -/
def msgWrongRuntime (runtime : String) : String :=
  "Received a spec for the wrong runtime: " ++ runtime

/-- The error text standing for a `serde_yaml` parse failure of the
runtime config string. -/
def msgBadRuntimeConfig : String := "Invalid runtime config."

/-- The conversion `PodmanRuntimeConfig::try_from(&WorkloadSpec)`
(`podman_runtime_config.rs`, lines 19-33). Modelled from the spec: the
YAML text parser (`serde_yaml::from_str`) is external, so the parse of
`spec.runtimeConfig` is passed as its resulting structured document,
`none` standing for text that is not a valid YAML document. -/
def podman_runtime_config_try_from (spec : WorkloadSpec)
    (runtimeConfigDoc : Option Yval) : Except String PodmanRuntimeConfig :=
  if PODMAN_RUNTIME_NAME ≠ spec.runtime then
    Except.error (msgWrongRuntime spec.runtime)
  else
    match runtimeConfigDoc with
    | none => Except.error msgBadRuntimeConfig
    | some d =>
        match podmanDeserialize d with
        | some cfg => Except.ok cfg
        | none => Except.error msgBadRuntimeConfig

/-- The merge described by the specification of `update_state`: for
each field of the mask in order, a field present in the state from the
update is set in the working copy, an absent one is removed; a failing
set or remove fails the whole merge with the offending dotted field. -/
def mergeViaMask (stateFromUpdate : Yval) : Yval → List String → Except String Yval
  | cur, [] => Except.ok cur
  | cur, f :: fs =>
      let p := pathOfString f
      match Object.getTop stateFromUpdate p with
      | some v =>
          match Object.set cur p v with
          | some cur2 => mergeViaMask stateFromUpdate cur2 fs
          | none => Except.error (stringOfPath p)
      | none =>
          match Object.remove cur p with
          | some cur2 => mergeViaMask stateFromUpdate cur2 fs
          | none => Except.error (stringOfPath p)

/-- The projection described by the specification of
`get_complete_state_by_field_mask`: iterate the mask in order, copy the
sub-tree of every field present in the view, silently skip absent
fields; copying never fails. -/
def projectMask (source : Yval) : Yval → List String → Yval
  | acc, [] => acc
  | acc, f :: fs =>
      let p := pathOfString f
      match Object.getTop source p with
      | some v => projectMask source ((Object.set acc p v).getD acc) fs
      | none => projectMask source acc fs

/-- The states reported by the polling loop as the specification
describes them: the sub-sequence of observed states that differ from
the most recently reported one, truncated right after a `Removed`. -/
def reportedStates : ExecutionState → List ExecutionState → List ExecutionState
  | _, [] => []
  | lastReported, s :: rest =>
      if s = lastReported then reportedStates lastReported rest
      else if s = ExecutionState.ExecRemoved then [s]
      else s :: reportedStates s rest

/-- The predicate `SubDoc r s`: every sub-tree reachable in the partially assembled
projection `r` is either a mapping (a level `Object::set` created) or
the sub-tree of the source view `s` at the same path. The projection
loop of `get_complete_state_by_field_mask` preserves this invariant,
which is why its `return_state.set` calls cannot fail. -/
def SubDoc (r s : Yval) : Prop :=
  ∀ p v, Object.get r p = some v →
    (∃ fs, v = Yval.map fs) ∨ Object.get s p = some v

/-- A concrete workload used by the witnesses (modelled on the test
fixtures of `server_state.rs`). -/
def mkTestWorkload (agent name runtime : String) : WorkloadSpec :=
  ⟨name, agent, runtime, "image: alpine", [("other_workload", "ExecRunning")], ["tag1"]⟩

/-- Witness fixture: workload 1 on agent A. -/
def wl1 : WorkloadSpec := mkTestWorkload ("agent_A") ("workload_1") ("runtime_1")

/-- Witness fixture: workload 2 on agent A. -/
def wl2 : WorkloadSpec := mkTestWorkload ("agent_A") ("workload_2") ("runtime_2")

/-- Witness fixture: workload 3 on agent B. -/
def wl3 : WorkloadSpec := mkTestWorkload ("agent_B") ("workload_3") ("runtime_1")

/-- Witness fixture: the updated workload 1, moved to agent B. -/
def wl1b : WorkloadSpec := mkTestWorkload ("agent_B") ("workload_1") ("runtime_2")

/-- Witness fixture: workload 4 on agent A. -/
def wl4 : WorkloadSpec := mkTestWorkload ("agent_A") ("workload_4") ("runtime_1")

/-- Witness fixture: a workload depending on itself. -/
def wlCyc : WorkloadSpec :=
  ⟨"workload A", "agent_A", "runtime", "", [("workload A", "ExecRunning")], []⟩

/-- Witness fixture: the stored complete state `{w1, w2, w3}`. -/
def csOld : CompleteState :=
  ⟨⟨[("workload_1", wl1), ("workload_2", wl2), ("workload_3", wl3)], []⟩,
    ⟨[], []⟩, []⟩

/-- Witness fixture: the incoming complete state `{w1@B, w4}`. -/
def csUpd : CompleteState :=
  ⟨⟨[("workload_1", wl1b), ("workload_4", wl4)], []⟩, ⟨[], []⟩, []⟩

/-- Witness fixture: a server state holding `csOld` and an empty delete
graph. -/
def ssOld : ServerState := ⟨csOld, ⟨[]⟩⟩

/-- Witness fixture: a state rejected for its self-cycle. -/
def csCyc : CompleteState :=
  ⟨⟨[("workload A", wlCyc), ("workload_1", wl1)], []⟩, ⟨[], []⟩, []⟩

/-- Witness fixture: a stored state whose ancillary configs differ from
`csNoWl` while both have no workloads. -/
def csCfg : CompleteState := ⟨⟨[], [("key", "value")]⟩, ⟨[], []⟩, []⟩

/-- Witness fixture: a complete state with no workloads and no configs. -/
def csNoWl : CompleteState := ⟨⟨[], []⟩, ⟨[], []⟩, []⟩

/-- Witness fixture: a server state holding `csCfg`. -/
def ssCfg : ServerState := ⟨csCfg, ⟨[]⟩⟩

/-- Witness fixture: the workload spec used by the checker witnesses. -/
def wlChk : WorkloadSpec := mkTestWorkload ("agent_x") ("workload1") ("runtime1")

/-- Witness fixture: the added list produced by updating `ssOld` with
`csUpd` under an empty mask. -/
def addedFix : List WorkloadSpec := [wl1b, wl4]

/-- Witness fixture: the deleted list produced by updating `ssOld` with
`csUpd` under an empty mask. -/
def deletedFix : List DeletedWorkload :=
  [⟨"workload_1", "agent_A", []⟩, ⟨"workload_2", "agent_A", []⟩,
    ⟨"workload_3", "agent_B", []⟩]

/-- Witness fixture: the server state after committing `csUpd` over
`ssOld` (the delete graph holds the edges of the two added workloads). -/
def ssAfterFix : ServerState :=
  ⟨csUpd, ⟨[("other_workload", "workload_1", "ExecRunning"),
    ("other_workload", "workload_4", "ExecRunning")]⟩⟩

instance {ε α : Type} [DecidableEq ε] [DecidableEq α] : DecidableEq (Except ε α) :=
  fun a b =>
    match a, b with
    | Except.ok x, Except.ok y =>
        if h : x = y then isTrue (by rw [h]) else isFalse (by simp [h])
    | Except.error e, Except.error f =>
        if h : e = f then isTrue (by rw [h]) else isFalse (by simp [h])
    | Except.ok _, Except.error _ => isFalse (by simp)
    | Except.error _, Except.ok _ => isFalse (by simp)

/-- C1: `ServerState::update` is atomic: whenever it returns an error
(`FieldNotFound`, `ResultInvalid` or `CycleInDependencies`), the server
state — the stored `CompleteState` together with the delete graph — is
exactly the state before the call, and `delete_graph.insert` was never
invoked during the call (the invocation flag of the transition is
`false`); a cycle rejection takes this path too. -/
theorem update_error_leaves_state_unchanged (ss : ServerState)
    (ns : CompleteState) (mask : List String)
    (h : ∃ e, (ss.update ns mask).1 = Except.error e) :
    (ss.update ns mask).2.1 = ss ∧ (ss.update ns mask).2.2 = false := by
  obtain ⟨e, he⟩ := h
  unfold ServerState.update at he ⊢
  cases hu : update_state ss.state ns mask with
  | error e2 => simp [hu]
  | ok merged =>
      simp only [hu] at he ⊢
      cases hx : extract_added_and_deleted_workloads ss.state.currentState
          merged.currentState with
      | none => simp [hx]
      | some p =>
          obtain ⟨added, deleted⟩ := p
          simp only [hx] at he ⊢
          cases hc : cycleCheckDfs merged.currentState
              ((added.filter fun w => !w.dependencies.isEmpty).map
                (fun w => w.name)) with
          | none => simp [hc] at he
          | some cyc => simp [hc]

/-- C1 witness: rejecting the self-cycle `workload A` leaves the server
state of `csOld`-style fixture `ssCyc` untouched and never reaches the
`delete_graph.insert` line. -/
theorem update_error_leaves_state_unchanged_witness :
    ((ServerState.mk ⟨⟨[("workload_1", wl1)], []⟩, ⟨[], []⟩, []⟩ ⟨[]⟩).update
        csCyc []).2.1 =
      ServerState.mk ⟨⟨[("workload_1", wl1)], []⟩, ⟨[], []⟩, []⟩ ⟨[]⟩ ∧
    ((ServerState.mk ⟨⟨[("workload_1", wl1)], []⟩, ⟨[], []⟩, []⟩ ⟨[]⟩).update
        csCyc []).2.2 = false :=
  update_error_leaves_state_unchanged _ csCyc []
    ⟨UpdateStateError.CycleInDependencies ("workload A"), by decide⟩

/-- C2 counterexample: a merge that succeeds (empty mask, so the merged
state is the incoming `csNoWl`) with empty added and deleted workload
sets makes `update` return `Ok(None)`, but the stored `CompleteState`
stays `csCfg` and is NOT the merged state: the merged state is
discarded, contradicting the claim that it is committed. -/
theorem update_empty_diff_discards_merged_counterexample :
    update_state ssCfg.state csNoWl [] = Except.ok csNoWl ∧
    extract_added_and_deleted_workloads ssCfg.state.currentState
      csNoWl.currentState = none ∧
    ssCfg.update csNoWl [] = (Except.ok none, ssCfg, false) ∧
    ssCfg.state ≠ csNoWl := by
  refine ⟨by decide, by decide, ?_, by decide⟩
  unfold ServerState.update
  decide

/-- C2 (amended): whenever the merge of `ServerState::update` succeeds
and the computed added and deleted workload sets are both empty, the
call returns `Ok(None)` and leaves the server state unchanged — the
merged state is discarded rather than committed, and the delete graph
is not touched. -/
theorem update_empty_diff_returns_none (ss : ServerState)
    (ns merged : CompleteState) (mask : List String)
    (h1 : update_state ss.state ns mask = Except.ok merged)
    (h2 : extract_added_and_deleted_workloads ss.state.currentState
      merged.currentState = none) :
    ss.update ns mask = (Except.ok none, ss, false) := by
  unfold ServerState.update
  simp [h1, h2]

/-- C2 witness: the amended behaviour at the concrete fixture. -/
theorem update_empty_diff_returns_none_witness :
    ssCfg.update csNoWl [] = (Except.ok none, ssCfg, false) :=
  update_empty_diff_returns_none ssCfg csNoWl csNoWl [] (by decide) (by decide)

/-- C9: `get_workloads_for_agent` returns exactly the workload specs of
the stored current state whose agent field equals the given agent name
(a pure linear filter over `current_state.workloads`; order is the
iteration order and the embedding is a function of the server state, so
the state is not modified). -/
theorem get_workloads_for_agent_spec (ss : ServerState) (agentName : String)
    (w : WorkloadSpec) :
    w ∈ ss.get_workloads_for_agent agentName ↔
      (∃ n, (n, w) ∈ ss.state.currentState.workloads) ∧ w.agent = agentName := by
  unfold ServerState.get_workloads_for_agent
  simp only [List.mem_filter, List.mem_map, beq_iff_eq]
  constructor
  · rintro ⟨⟨p, hp, rfl⟩, ha⟩
    exact ⟨⟨p.1, hp⟩, ha⟩
  · rintro ⟨⟨n, hn⟩, ha⟩
    exact ⟨⟨(n, w), hn, rfl⟩, ha⟩

theorem sentBatches_nil : sentBatches [] = [] := rfl

theorem sentBatches_poll (s : ExecutionState) (t : List CheckerEvent) :
    sentBatches (CheckerEvent.poll s :: t) = sentBatches t := by
  simp [sentBatches, List.filterMap_cons]

theorem sentBatches_send (b : List WorkloadState) (t : List CheckerEvent) :
    sentBatches (CheckerEvent.send b :: t) = b :: sentBatches t := by
  simp [sentBatches, List.filterMap_cons]

/-- The batches of the polling loop are exactly the spec-side reported
states, each wrapped as a single-element batch for this workload. -/
theorem sentBatches_checkerLoop (spec : WorkloadSpec) :
    ∀ (obs : List ExecutionState) (lastState : ExecutionState),
      sentBatches (checkerLoop spec lastState obs) =
        (reportedStates lastState obs).map
          (fun s => [WorkloadState.mk spec.agent spec.name s]) := by
  intro obs
  induction obs with
  | nil => intro lastState; rfl
  | cons s rest ih =>
      intro lastState
      by_cases h1 : s = lastState
      · subst h1
        simp [checkerLoop, reportedStates, sentBatches_poll, ih]
      · by_cases h2 : s = ExecutionState.ExecRemoved
        · subst h2
          simp [checkerLoop, reportedStates, h1, sentBatches_poll,
            sentBatches_send, sentBatches_nil]
        · simp [checkerLoop, reportedStates, h1, h2, sentBatches_poll,
            sentBatches_send, ih]

/-- A stable observation sequence produces no reported states. -/
theorem reportedStates_stable :
    ∀ (obs : List ExecutionState) (lastState : ExecutionState),
      (∀ s ∈ obs, s = lastState) → reportedStates lastState obs = [] := by
  intro obs
  induction obs with
  | nil => intro lastState _; rfl
  | cons s rest ih =>
      intro lastState h
      have hs : s = lastState := h s (List.mem_cons_self s rest)
      subst hs
      simp only [reportedStates, if_pos rfl]
      exact ih s fun x hx => h x (List.mem_cons_of_mem s hx)

/-- C7: the polling loop sends a report exactly when the polled state
differs from the most recently reported one: the batches of a trace are
precisely the spec-side `reportedStates` (changed states, truncated
after `Removed`) wrapped one by one; every batch is a single-element
batch carrying the workload's agent, name and the observed state; a
sequence polling only states equal to the last reported one sends
nothing; and since the initial last-reported value is `ExecUnknown`,
a first observation that is not `ExecUnknown` always produces the first
report. -/
theorem polling_checker_reports_changes (spec : WorkloadSpec)
    (obs : List ExecutionState) :
    sentBatches (start_checker spec obs) =
      (reportedStates ExecutionState.ExecUnknown obs).map
        (fun s => [WorkloadState.mk spec.agent spec.name s]) ∧
    (∀ b ∈ sentBatches (start_checker spec obs), ∃ s,
        b = [WorkloadState.mk spec.agent spec.name s]) ∧
    (∀ (lastState : ExecutionState) (obs2 : List ExecutionState),
        (∀ s ∈ obs2, s = lastState) →
        sentBatches (checkerLoop spec lastState obs2) = []) ∧
    (∀ s rest, obs = s :: rest → s ≠ ExecutionState.ExecUnknown →
        ∃ t, sentBatches (start_checker spec obs) =
          [WorkloadState.mk spec.agent spec.name s] :: t) := by
  refine ⟨sentBatches_checkerLoop spec obs ExecutionState.ExecUnknown, ?_, ?_, ?_⟩
  · intro b hb
    unfold start_checker at hb
    rw [sentBatches_checkerLoop spec obs ExecutionState.ExecUnknown] at hb
    obtain ⟨s, _, hs⟩ := List.mem_map.mp hb
    exact ⟨s, hs.symm⟩
  · intro lastState obs2 h
    rw [sentBatches_checkerLoop spec obs2 lastState, reportedStates_stable obs2 lastState h]
    rfl
  · intro s rest hobs hne
    subst hobs
    unfold start_checker
    rw [sentBatches_checkerLoop spec (s :: rest) ExecutionState.ExecUnknown]
    by_cases h2 : s = ExecutionState.ExecRemoved
    · subst h2
      exact ⟨[], by simp [reportedStates, hne]⟩
    · exact ⟨(reportedStates s rest).map
        (fun x => [WorkloadState.mk spec.agent spec.name x]), by
          simp [reportedStates, hne, h2]⟩

/-- C7 witness: a stable `Running` getter produces exactly one report,
and a getter returning only the initial `ExecUnknown` produces none. -/
theorem polling_checker_reports_changes_witness :
    sentBatches (start_checker wlChk
        [ExecutionState.ExecRunning, ExecutionState.ExecRunning]) =
      [[WorkloadState.mk ("agent_x") ("workload1") ExecutionState.ExecRunning]] ∧
    sentBatches (checkerLoop wlChk ExecutionState.ExecUnknown
        [ExecutionState.ExecUnknown]) = [] := by
  constructor
  · have h := (polling_checker_reports_changes wlChk
      [ExecutionState.ExecRunning, ExecutionState.ExecRunning]).1
    rw [h]; decide
  · exact (polling_checker_reports_changes wlChk []).2.2.1
      ExecutionState.ExecUnknown [ExecutionState.ExecUnknown] (by decide)

/-- After a batch reporting `Removed` appears in the trace, extending
the observation sequence changes nothing: the loop neither polls the
getter again nor sends another report. -/
theorem checkerLoop_stops_after_removed (spec : WorkloadSpec) :
    ∀ (obs : List ExecutionState) (lastState : ExecutionState)
      (rest : List ExecutionState),
      (∃ b, CheckerEvent.send b ∈ checkerLoop spec lastState obs ∧
        WorkloadState.mk spec.agent spec.name ExecutionState.ExecRemoved ∈ b) →
      checkerLoop spec lastState (obs ++ rest) = checkerLoop spec lastState obs := by
  intro obs
  induction obs with
  | nil =>
      intro lastState rest h
      obtain ⟨b, hb, _⟩ := h
      simp [checkerLoop] at hb
  | cons s obs2 ih =>
      intro lastState rest h
      obtain ⟨b, hb, hrem⟩ := h
      by_cases h1 : s = lastState
      · subst h1
        simp only [checkerLoop, ne_eq, not_true_eq_false, if_neg,
          List.cons_append, reduceIte] at hb ⊢
        rcases List.mem_cons.mp hb with hpoll | htail
        · exact absurd hpoll (by simp)
        · exact congrArg (fun t => CheckerEvent.poll s :: t)
            (ih s rest ⟨b, htail, hrem⟩)
      · by_cases h2 : s = ExecutionState.ExecRemoved
        · subst h2
          simp [checkerLoop, h1]
        · simp only [checkerLoop, ne_eq, h1, not_false_eq_true, if_pos, if_neg,
            h2, List.cons_append, reduceIte] at hb ⊢
          rcases List.mem_cons.mp hb with hpoll | hb2
          · exact absurd hpoll (by simp)
          · rcases List.mem_cons.mp hb2 with hsend | htail
            · have hb3 : b = [WorkloadState.mk spec.agent spec.name s] := by
                exact CheckerEvent.send.inj hsend
              rw [hb3] at hrem
              have : ExecutionState.ExecRemoved = s := by
                have := List.mem_singleton.mp hrem
                exact congrArg WorkloadState.executionState this
              exact absurd this.symm h2
            · exact congrArg (fun t => CheckerEvent.poll s ::
                CheckerEvent.send [WorkloadState.mk spec.agent spec.name s] :: t)
                (ih s rest ⟨b, htail, hrem⟩)

/-- C8: once the polling loop has reported the `Removed` execution
state for its workload, it terminates: making further getter results
available does not extend the event trace — the getter is never polled
again and no further report is sent. -/
theorem polling_checker_terminal_after_removed (spec : WorkloadSpec)
    (obs rest : List ExecutionState)
    (h : ∃ b, CheckerEvent.send b ∈ start_checker spec obs ∧
      WorkloadState.mk spec.agent spec.name ExecutionState.ExecRemoved ∈ b) :
    start_checker spec (obs ++ rest) = start_checker spec obs :=
  checkerLoop_stops_after_removed spec obs ExecutionState.ExecUnknown rest h

/-- C8 witness: after observing `Removed`, a further `Running`
observation is never polled and never reported. -/
theorem polling_checker_terminal_after_removed_witness :
    start_checker wlChk
        ([ExecutionState.ExecRemoved] ++ [ExecutionState.ExecRunning]) =
      start_checker wlChk [ExecutionState.ExecRemoved] :=
  polling_checker_terminal_after_removed wlChk [ExecutionState.ExecRemoved]
    [ExecutionState.ExecRunning]
    ⟨[WorkloadState.mk ("agent_x") ("workload1") ExecutionState.ExecRemoved],
      by decide, by decide⟩

/-- The derived deserializer succeeds exactly on mapping documents with
a string `image` field and well-formed optional fields, and the
resulting config's fields equal the document's values. -/
theorem podmanDeserialize_some_iff (d : Yval) (cfg : PodmanRuntimeConfig) :
    podmanDeserialize d = some cfg ↔
      ∃ fs, d = Yval.map fs ∧
        (slookup fs kImage).bind parseStr = some cfg.image ∧
        optAliasField fs kGeneralOptionsSnake kGeneralOptionsCamel =
          some cfg.general_options ∧
        optAliasField fs kCommandOptionsSnake kCommandOptionsCamel =
          some cfg.command_options ∧
        optAliasField fs kCommandArgsSnake kCommandArgsCamel =
          some cfg.command_args := by
  cases d with
  | str s => simp [podmanDeserialize]
  | seq xs => simp [podmanDeserialize]
  | map fs =>
      constructor
      · intro h
        simp only [podmanDeserialize, Option.bind_eq_some, Option.map_eq_some'] at h
        obtain ⟨img, h1, g, h2, co, h3, ca, h4, h5⟩ := h
        refine ⟨fs, rfl, ?_, ?_, ?_, ?_⟩
        · rw [← h5]; exact Option.bind_eq_some.mpr h1
        · rw [← h5]; exact h2
        · rw [← h5]; exact h3
        · rw [← h5]; exact h4
      · rintro ⟨fs2, hfs, h1, h2, h3, h4⟩
        injection hfs with hfs2
        subst hfs2
        simp only [podmanDeserialize, Option.bind_eq_some, Option.map_eq_some']
        obtain ⟨a, ha1, ha2⟩ := Option.bind_eq_some.mp h1
        exact ⟨cfg.image, ⟨a, ha1, ha2⟩, cfg.general_options, h2,
          cfg.command_options, h3, cfg.command_args, h4, rfl⟩

/-- C10: `PodmanRuntimeConfig::try_from` rejects every spec whose
runtime differs from the podman runtime name; for a podman spec it
succeeds exactly when the runtime config text parses as a YAML mapping
with a string field `image` — the three option fields being optional
and accepted under their camel-case aliases — and on success the
config's fields equal the corresponding document values. -/
theorem podman_try_from_spec (spec : WorkloadSpec) (doc : Option Yval) :
    (spec.runtime ≠ PODMAN_RUNTIME_NAME →
      ∃ e, podman_runtime_config_try_from spec doc = Except.error e) ∧
    (∀ cfg : PodmanRuntimeConfig,
      podman_runtime_config_try_from spec doc = Except.ok cfg ↔
        (spec.runtime = PODMAN_RUNTIME_NAME ∧
          ∃ fs, doc = some (Yval.map fs) ∧
            (slookup fs kImage).bind parseStr = some cfg.image ∧
            optAliasField fs kGeneralOptionsSnake kGeneralOptionsCamel =
              some cfg.general_options ∧
            optAliasField fs kCommandOptionsSnake kCommandOptionsCamel =
              some cfg.command_options ∧
            optAliasField fs kCommandArgsSnake kCommandArgsCamel =
              some cfg.command_args)) := by
  constructor
  · intro h
    unfold podman_runtime_config_try_from
    rw [if_pos (Ne.symm h)]
    exact ⟨msgWrongRuntime spec.runtime, rfl⟩
  · intro cfg
    unfold podman_runtime_config_try_from
    by_cases hr : PODMAN_RUNTIME_NAME ≠ spec.runtime
    · rw [if_pos hr]
      constructor
      · intro h
        exact absurd h (by simp)
      · rintro ⟨hrt, _⟩
        exact absurd hrt.symm hr
    · rw [if_neg hr]
      push_neg at hr
      cases doc with
      | none =>
          constructor
          · intro h
            exact absurd h (by simp)
          · rintro ⟨_, fs, hfs, _⟩
            exact Option.noConfusion hfs
      | some d =>
          cases hd : podmanDeserialize d with
          | none =>
              simp only [hd]
              constructor
              · intro h
                exact absurd h (by simp)
              · rintro ⟨_, fs, hfs, h1, h2, h3, h4⟩
                injection hfs with hfs2
                subst hfs2
                rw [(podmanDeserialize_some_iff _ cfg).mpr ⟨fs, rfl, h1, h2, h3, h4⟩] at hd
                exact Option.noConfusion hd
          | some cfg2 =>
              simp only [hd, Except.ok.injEq]
              constructor
              · intro h
                subst h
                obtain ⟨fs, hfs, hrest⟩ := (podmanDeserialize_some_iff d cfg2).mp hd
                exact ⟨hr.symm, fs, by rw [hfs], hrest⟩
              · rintro ⟨_, fs, hfs, h1, h2, h3, h4⟩
                injection hfs with hfs2
                subst hfs2
                rw [(podmanDeserialize_some_iff _ cfg).mpr ⟨fs, rfl, h1, h2, h3, h4⟩] at hd
                exact (Option.some.inj hd).symm

/-- C10 witness: a spec of another runtime is rejected, and a podman
spec whose config document carries only a string `image` succeeds with
exactly that image and `None` for the option fields. -/
theorem podman_try_from_spec_witness :
    (∃ e, podman_runtime_config_try_from
        (mkTestWorkload ("agent_x") ("w") ("other_runtime")) none =
      Except.error e) ∧
    podman_runtime_config_try_from (mkTestWorkload ("agent_x") ("w") ("podman"))
        (some (Yval.map [(kImage, Yval.str ("alpine:latest"))])) =
      Except.ok (PodmanRuntimeConfig.mk none none ("alpine:latest") none) := by
  constructor
  · exact (podman_try_from_spec _ none).1 (by decide)
  · exact ((podman_try_from_spec _ _).2 _).mpr
      ⟨by decide, [(kImage, Yval.str ("alpine:latest"))], rfl,
        by decide, by decide, by decide, by decide⟩

theorem slookup_mem {α : Type} {l : List (String × α)} {n : String} {w : α}
    (h : slookup l n = some w) : (n, w) ∈ l := by
  induction l with
  | nil => exact absurd h (by simp [slookup])
  | cons p ps ih =>
      rw [slookup] at h
      by_cases hp : p.1 = n
      · rw [if_pos hp] at h
        exact List.mem_cons.mpr (Or.inl (by rw [← hp, ← Option.some.inj h]))
      · rw [if_neg hp] at h
        exact List.mem_cons.mpr (Or.inr (ih h))

theorem slookup_eq_none {α : Type} {l : List (String × α)} {n : String} :
    slookup l n = none ↔ ∀ q ∈ l, q.1 ≠ n := by
  induction l with
  | nil => simp [slookup]
  | cons p ps ih =>
      rw [slookup]
      by_cases hp : p.1 = n
      · simp [hp]
      · simp [hp, ih]

theorem slookup_isSome_of_mem {α : Type} {l : List (String × α)} {n : String}
    {w : α} (h : (n, w) ∈ l) : ∃ u, slookup l n = some u := by
  cases hl : slookup l n with
  | some u => exact ⟨u, rfl⟩
  | none => exact absurd rfl (slookup_eq_none.mp hl (n, w) h)

theorem slookup_of_mem_nodup {α : Type} {l : List (String × α)} {n : String}
    {w : α} (hnd : (l.map Prod.fst).Nodup) (h : (n, w) ∈ l) :
    slookup l n = some w := by
  induction l with
  | nil => exact absurd h (by simp)
  | cons p ps ih =>
      rw [List.map_cons, List.nodup_cons] at hnd
      rw [slookup]
      rcases List.mem_cons.mp h with hh | ht
      · rw [← hh]
        simp
      · have hne : p.1 ≠ n := by
          intro he
          exact hnd.1 (he ▸ (List.mem_map.mpr ⟨(n, w), ht, rfl⟩))
        rw [if_neg hne]
        exact ih hnd.2 ht

/-- Membership in the changed-workload pass of the diff. -/
theorem mem_changed_pass {cur new : State} {w2 : WorkloadSpec} :
    (w2 ∈ cur.workloads.filterMap fun p =>
      match slookup new.workloads p.1 with
      | some nw => if p.2 ≠ nw then some nw else none
      | none => none) ↔
    ∃ n w, (n, w) ∈ cur.workloads ∧
      slookup new.workloads n = some w2 ∧ w ≠ w2 := by
  rw [List.mem_filterMap]
  constructor
  · rintro ⟨⟨n, w⟩, hm, hf⟩
    dsimp only at hf
    rcases hlk : slookup new.workloads n with _ | nw
    · simp only [hlk] at hf
      exact absurd hf (by simp)
    · simp only [hlk] at hf
      by_cases hne : w ≠ nw
      · rw [if_pos hne] at hf
        have hw : nw = w2 := Option.some.inj hf
        subst hw
        exact ⟨n, w, hm, hlk, hne⟩
      · rw [if_neg hne] at hf
        exact absurd hf (by simp)
  · rintro ⟨n, w, hm, hlk, hne⟩
    refine ⟨(n, w), hm, ?_⟩
    dsimp only
    simp only [hlk, if_pos hne]

/-- Membership in the new-workload pass of the diff. -/
theorem mem_new_pass {cur new : State} {w2 : WorkloadSpec} :
    (w2 ∈ (new.workloads.filter fun q =>
      (slookup cur.workloads q.1).isNone).map Prod.snd) ↔
    ∃ n, (n, w2) ∈ new.workloads ∧ slookup cur.workloads n = none := by
  rw [List.mem_map]
  constructor
  · rintro ⟨⟨n, w⟩, hm, hsnd⟩
    rw [List.mem_filter] at hm
    dsimp only at hsnd
    subst hsnd
    exact ⟨n, hm.1, Option.isNone_iff_eq_none.mp hm.2⟩
  · rintro ⟨n, hm, hlk⟩
    exact ⟨(n, w2), List.mem_filter.mpr ⟨hm, by simp [hlk]⟩, rfl⟩

/-- Membership in the added list of the diff. -/
theorem mem_addedWorkloadsOf {cur new : State} {w2 : WorkloadSpec} :
    w2 ∈ addedWorkloadsOf cur new ↔
      (∃ n w, (n, w) ∈ cur.workloads ∧
        slookup new.workloads n = some w2 ∧ w ≠ w2) ∨
      (∃ n, (n, w2) ∈ new.workloads ∧ slookup cur.workloads n = none) := by
  unfold addedWorkloadsOf
  rw [List.mem_append, mem_changed_pass, mem_new_pass]

/-- Membership in the deleted list of the diff. -/
theorem mem_deletedWorkloadsOf {cur new : State} {d : DeletedWorkload} :
    d ∈ deletedWorkloadsOf cur new ↔
      ∃ n w, (n, w) ∈ cur.workloads ∧ d = DeletedWorkload.mk n w.agent [] ∧
        (slookup new.workloads n = none ∨
          ∃ nw, slookup new.workloads n = some nw ∧ w ≠ nw) := by
  unfold deletedWorkloadsOf
  rw [List.mem_filterMap]
  constructor
  · rintro ⟨⟨n, w⟩, hm, hf⟩
    dsimp only at hf
    rcases hlk : slookup new.workloads n with _ | nw
    · simp only [hlk] at hf
      exact ⟨n, w, hm, (Option.some.inj hf).symm, Or.inl hlk⟩
    · simp only [hlk] at hf
      by_cases hne : w ≠ nw
      · rw [if_pos hne] at hf
        exact ⟨n, w, hm, (Option.some.inj hf).symm, Or.inr ⟨nw, hlk, hne⟩⟩
      · rw [if_neg hne] at hf
        exact absurd hf (by simp)
  · rintro ⟨n, w, hm, hd, hlk | ⟨nw, hlk, hne⟩⟩
    · refine ⟨(n, w), hm, ?_⟩
      dsimp only
      simp only [hlk, hd]
    · refine ⟨(n, w), hm, ?_⟩
      dsimp only
      simp only [hlk, if_pos hne, hd]

/-- Decomposition of a successful `update` that returned a diff: the
added list is exactly the diff's added list, and the deleted list is
the diff's deleted list annotated by the delete graph (annotation
changes only the dependencies field). -/
theorem update_ok_some_parts (ss : ServerState) (ns m : CompleteState)
    (mask : List String) (added : List WorkloadSpec)
    (deleted : List DeletedWorkload)
    (hm : update_state ss.state ns mask = Except.ok m)
    (h : (ss.update ns mask).1 = Except.ok (some (added, deleted))) :
    added = addedWorkloadsOf ss.state.currentState m.currentState ∧
    deleted = (deletedWorkloadsOf ss.state.currentState m.currentState).map
      (ss.deleteGraph.insert added).annotate := by
  unfold ServerState.update at h
  simp only [hm] at h
  cases hx : extract_added_and_deleted_workloads ss.state.currentState
      m.currentState with
  | none => simp [hx] at h
  | some p =>
      obtain ⟨A, D⟩ := p
      have hAD : A = addedWorkloadsOf ss.state.currentState m.currentState ∧
          D = deletedWorkloadsOf ss.state.currentState m.currentState := by
        unfold extract_added_and_deleted_workloads at hx
        by_cases hIf : (addedWorkloadsOf ss.state.currentState
            m.currentState).isEmpty &&
            (deletedWorkloadsOf ss.state.currentState m.currentState).isEmpty
        · rw [if_pos hIf] at hx
          exact absurd hx (by simp)
        · rw [if_neg hIf] at hx
          obtain ⟨h1, h2⟩ := Prod.mk.injEq .. ▸ Option.some.inj hx
          exact ⟨h1.symm, h2.symm⟩
      simp only [hx] at h
      cases hc : cycleCheckDfs m.currentState
          ((A.filter fun w => !w.dependencies.isEmpty).map (fun w => w.name)) with
      | some cyc => simp [hc] at h
      | none =>
          obtain ⟨hA2, hD2⟩ := hAD
          subst hA2
          subst hD2
          simp only [hc, DeleteGraph.applyDeleteConditionsTo,
            Except.ok.injEq, Option.some.injEq, Prod.mk.injEq] at h
          have hp := Option.some.inj h
          have hA := congrArg Prod.fst hp
          have hD := congrArg Prod.snd hp
          dsimp only at hA hD
          subst hA
          exact ⟨rfl, hD.symm⟩

/-- C3: a successful `ServerState::update` that returns
`Some((added, deleted))` reflects the diff of the old current state
against the merged current state: a name in both states with unequal
specs contributes the new spec to `added` and a `DeletedWorkload` with
the old agent and name to `deleted`; a name only in the old state
contributes to `deleted`; a name only in the new state contributes to
`added` and never to `deleted`; a name with equal specs never
contributes to `deleted`; and every element of `added` and `deleted`
arises from such a changed, removed or new name (so unchanged and
old-only names contribute nothing to `added`, and unchanged or new-only
names nothing to `deleted`). -/
theorem update_diff_characterization (ss : ServerState) (ns m : CompleteState)
    (mask : List String) (added : List WorkloadSpec)
    (deleted : List DeletedWorkload)
    (hndOld : (ss.state.currentState.workloads.map Prod.fst).Nodup)
    (hndNew : (m.currentState.workloads.map Prod.fst).Nodup)
    (hm : update_state ss.state ns mask = Except.ok m)
    (h : (ss.update ns mask).1 = Except.ok (some (added, deleted))) :
    (∀ n w w2, slookup ss.state.currentState.workloads n = some w →
        slookup m.currentState.workloads n = some w2 → w ≠ w2 →
        w2 ∈ added ∧ ∃ d ∈ deleted, d.name = n ∧ d.agent = w.agent) ∧
    (∀ n w, slookup ss.state.currentState.workloads n = some w →
        slookup m.currentState.workloads n = none →
        ∃ d ∈ deleted, d.name = n ∧ d.agent = w.agent) ∧
    (∀ n w2, slookup ss.state.currentState.workloads n = none →
        slookup m.currentState.workloads n = some w2 →
        w2 ∈ added ∧ ∀ d ∈ deleted, d.name ≠ n) ∧
    (∀ n w, slookup ss.state.currentState.workloads n = some w →
        slookup m.currentState.workloads n = some w →
        ∀ d ∈ deleted, d.name ≠ n) ∧
    (∀ w2 ∈ added, ∃ n, slookup m.currentState.workloads n = some w2 ∧
        (slookup ss.state.currentState.workloads n = none ∨
          ∃ w, slookup ss.state.currentState.workloads n = some w ∧ w ≠ w2)) ∧
    (∀ d ∈ deleted, ∃ w,
        slookup ss.state.currentState.workloads d.name = some w ∧
        d.agent = w.agent ∧
        (slookup m.currentState.workloads d.name = none ∨
          ∃ w2, slookup m.currentState.workloads d.name = some w2 ∧ w ≠ w2)) := by
  obtain ⟨hA, hD⟩ := update_ok_some_parts ss ns m mask added deleted hm h
  refine ⟨?_, ?_, ?_, ?_, ?_, ?_⟩
  · intro n w w2 h1 h2 hne
    constructor
    · rw [hA]
      exact mem_addedWorkloadsOf.mpr (Or.inl ⟨n, w, slookup_mem h1, h2, hne⟩)
    · refine ⟨(ss.deleteGraph.insert added).annotate
        (DeletedWorkload.mk n w.agent []), ?_, rfl, rfl⟩
      rw [hD]
      exact List.mem_map_of_mem _ (mem_deletedWorkloadsOf.mpr
        ⟨n, w, slookup_mem h1, rfl, Or.inr ⟨w2, h2, hne⟩⟩)
  · intro n w h1 h2
    refine ⟨(ss.deleteGraph.insert added).annotate
      (DeletedWorkload.mk n w.agent []), ?_, rfl, rfl⟩
    rw [hD]
    exact List.mem_map_of_mem _ (mem_deletedWorkloadsOf.mpr
      ⟨n, w, slookup_mem h1, rfl, Or.inl h2⟩)
  · intro n w2 h1 h2
    constructor
    · rw [hA]
      exact mem_addedWorkloadsOf.mpr (Or.inr ⟨n, slookup_mem h2, h1⟩)
    · intro d hd
      rw [hD] at hd
      obtain ⟨d0, hd0, hmap⟩ := List.mem_map.mp hd
      obtain ⟨n2, w, hmem, hd0eq, _⟩ := mem_deletedWorkloadsOf.mp hd0
      intro hdn
      have hn2 : n2 = n := by
        rw [← hmap] at hdn
        rw [hd0eq] at hdn
        exact hdn
      subst hn2
      obtain ⟨u, hu⟩ := slookup_isSome_of_mem hmem
      rw [h1] at hu
      exact Option.noConfusion hu
  · intro n w h1 h2 d hd
    rw [hD] at hd
    obtain ⟨d0, hd0, hmap⟩ := List.mem_map.mp hd
    obtain ⟨n2, w2, hmem, hd0eq, hcond⟩ := mem_deletedWorkloadsOf.mp hd0
    intro hdn
    have hn2 : n2 = n := by
      rw [← hmap] at hdn
      rw [hd0eq] at hdn
      exact hdn
    subst hn2
    have hw2 : w2 = w := by
      have := slookup_of_mem_nodup hndOld hmem
      rw [h1] at this
      exact (Option.some.inj this).symm
    subst hw2
    rcases hcond with hnone | ⟨nw, hnw, hne⟩
    · rw [h2] at hnone
      exact Option.noConfusion hnone
    · rw [h2] at hnw
      exact hne (Option.some.inj hnw)
  · intro w2 hw
    rw [hA] at hw
    rcases mem_addedWorkloadsOf.mp hw with ⟨n, w, hmem, hlk, hne⟩ | ⟨n, hmem, hlk⟩
    · exact ⟨n, hlk, Or.inr ⟨w, slookup_of_mem_nodup hndOld hmem, hne⟩⟩
    · exact ⟨n, slookup_of_mem_nodup hndNew hmem, Or.inl hlk⟩
  · intro d hd
    rw [hD] at hd
    obtain ⟨d0, hd0, hmap⟩ := List.mem_map.mp hd
    obtain ⟨n2, w, hmem, hd0eq, hcond⟩ := mem_deletedWorkloadsOf.mp hd0
    have hdn : d.name = n2 := by rw [← hmap, hd0eq]; rfl
    have hda : d.agent = w.agent := by rw [← hmap, hd0eq]; rfl
    rw [hdn]
    exact ⟨w, slookup_of_mem_nodup hndOld hmem, hda, hcond⟩

/-- C3 witness: updating `{w1@A, w2@A, w3@B}` to `{w1@B, w4@A}` with an
empty mask: the changed workload 1 appears in `added` with its new spec
and in `deleted` with its old agent and name. -/
theorem update_diff_characterization_witness :
    wl1b ∈ addedFix ∧
      ∃ d ∈ deletedFix, d.name = ("workload_1") ∧ d.agent = ("agent_A") := by
  have h := update_diff_characterization ssOld csUpd csUpd [] addedFix
    deletedFix (by decide) (by decide) (by decide) (by decide)
  exact h.1 ("workload_1") wl1 wl1b (by decide) (by decide) (by decide)

/-- An empty diff means the old and new workload maps agree on every
name. -/
theorem extract_none_pointwise (cur new : State)
    (h : extract_added_and_deleted_workloads cur new = none) :
    ∀ n, slookup cur.workloads n = slookup new.workloads n := by
  unfold extract_added_and_deleted_workloads at h
  by_cases hIf : (addedWorkloadsOf cur new).isEmpty &&
      (deletedWorkloadsOf cur new).isEmpty
  · obtain ⟨hA, hD⟩ := Bool.and_eq_true_iff.mp hIf
    have hAdd : addedWorkloadsOf cur new = [] := List.isEmpty_iff.mp hA
    have hDel : deletedWorkloadsOf cur new = [] := List.isEmpty_iff.mp hD
    intro n
    cases hc : slookup cur.workloads n with
    | some w =>
        have hmem := slookup_mem hc
        have hf := List.filterMap_eq_nil_iff.mp hDel (n, w) hmem
        dsimp only at hf
        cases hlk : slookup new.workloads n with
        | none =>
            simp only [hlk] at hf
            exact absurd hf (by simp)
        | some nw =>
            simp only [hlk] at hf
            by_cases hne : w ≠ nw
            · rw [if_pos hne] at hf
              exact absurd hf (by simp)
            · push_neg at hne
              rw [hne]
    | none =>
        cases hn : slookup new.workloads n with
        | none => rfl
        | some u =>
            have : u ∈ addedWorkloadsOf cur new :=
              mem_addedWorkloadsOf.mpr (Or.inr ⟨n, slookup_mem hn, hc⟩)
            rw [hAdd] at this
            exact absurd this (by simp)
  · rw [if_neg hIf] at h
    exact absurd h (by simp)

/-- C6 counterexample: updating `ssCfg` (configs `{key: value}`, no
workloads) with `csNoWl` (no configs, no workloads) under an empty mask
succeeds with `Ok(None)`, yet the subsequent unfiltered read returns
the OLD current state, whose configs differ from
`csNoWl.current_state`: the round trip does not return the submitted
current state. -/
theorem update_then_get_roundtrip_counterexample :
    (ssCfg.update csNoWl []).1 = Except.ok none ∧
    ServerState.get_complete_state_by_field_mask (ssCfg.update csNoWl []).2.1
      [] [] = Except.ok csCfg ∧
    csCfg.currentState ≠ csNoWl.currentState := by
  refine ⟨?_, ?_, by decide⟩
  · unfold ServerState.update
    decide
  · unfold ServerState.update
    decide

/-- C6 (amended): after a successful `update(s, [])`, an unfiltered
`get_complete_state_by_field_mask` returns a complete state whose
`current_state` workload map agrees with `s.current_state`'s on every
name; when the update actually returned `Some` (and therefore
committed), the returned `current_state` equals `s.current_state`
exactly. (When it returns `None` the merged state is discarded, so
non-workload fields of `current_state` may differ from `s`'s.) -/
theorem update_then_get_roundtrip (ss : ServerState) (s : CompleteState)
    (db : List WorkloadState) (r : AddedDeletedWorkloads)
    (ss2 : ServerState) (b : Bool) (c : CompleteState)
    (hu : ss.update s [] = (Except.ok r, ss2, b))
    (hg : ss2.get_complete_state_by_field_mask [] db = Except.ok c) :
    (∀ n, slookup c.currentState.workloads n =
      slookup s.currentState.workloads n) ∧
    (∀ p, r = some p → c.currentState = s.currentState) := by
  have hus : update_state ss.state s [] = Except.ok s := by
    unfold update_state
    rfl
  unfold ServerState.update at hu
  simp only [hus] at hu
  unfold ServerState.get_complete_state_by_field_mask at hg
  simp only [List.isEmpty_nil, if_true] at hg
  have hc := Except.ok.inj hg
  cases hx : extract_added_and_deleted_workloads ss.state.currentState
      s.currentState with
  | none =>
      simp only [hx] at hu
      have h1 := congrArg Prod.fst hu
      have h2 := congrArg (fun t => t.2.1) hu
      dsimp only at h1 h2
      have hr : r = none := (Except.ok.inj h1).symm
      constructor
      · intro n
        rw [← hc]
        dsimp only
        rw [← h2]
        exact extract_none_pointwise ss.state.currentState s.currentState hx n
      · intro p hp
        rw [hr] at hp
        exact absurd hp (by simp)
  | some pr =>
      obtain ⟨A, D⟩ := pr
      simp only [hx] at hu
      cases hcyc : cycleCheckDfs s.currentState
          ((A.filter fun w => !w.dependencies.isEmpty).map (fun w => w.name)) with
      | some cyc =>
          simp only [hcyc] at hu
          have h1 := congrArg Prod.fst hu
          dsimp only at h1
          exact absurd h1 (by simp)
      | none =>
          simp only [hcyc] at hu
          have h2 := congrArg (fun t => t.2.1) hu
          dsimp only at h2
          have hss : ss2.state = s := by rw [← h2]
          constructor
          · intro n
            rw [← hc]
            dsimp only
            rw [hss]
          · intro p hp
            rw [← hc]
            dsimp only
            rw [hss]

/-- C6 witness: the amended round trip at a committing update. -/
theorem update_then_get_roundtrip_witness :
    (∀ n, slookup csUpd.currentState.workloads n =
      slookup csUpd.currentState.workloads n) ∧
    (∀ p, (some (addedFix, deletedFix) : AddedDeletedWorkloads) = some p →
      csUpd.currentState = csUpd.currentState) := by
  refine update_then_get_roundtrip ssOld csUpd [] (some (addedFix, deletedFix))
    ssAfterFix true csUpd ?_ (by decide)
  unfold ServerState.update
  decide

/-- The field-mask loop of `update_state` is the masked merge described
by the specification, with each failure wrapped as `FieldNotFound`. -/
theorem updateStateLoop_eq_merge (upd : Yval) :
    ∀ (mask : List String) (cur : Yval),
      updateStateLoop upd cur mask =
        match mergeViaMask upd cur mask with
        | Except.ok v => Except.ok v
        | Except.error f => Except.error (UpdateStateError.FieldNotFound f) := by
  intro mask
  induction mask with
  | nil => intro cur; rfl
  | cons f fs ih =>
      intro cur
      simp only [updateStateLoop, mergeViaMask]
      cases h1 : Object.getTop upd (pathOfString f) with
      | some v =>
          cases h2 : Object.set cur (pathOfString f) v with
          | some cur2 => simp only [h2, ih cur2]
          | none => simp only [h2]
      | none =>
          cases h2 : Object.remove cur (pathOfString f) with
          | some cur2 => simp only [h2, ih cur2]
          | none => simp only [h2]

/-- C4: with a non-empty mask, `update_state` renders both states as
structured documents and performs the specified masked merge — for each
field in order, a field present in the update state is set in the
working copy and an absent one is removed from it; the first failing
set or remove yields `FieldNotFound` of that field, and a merged
document that does not parse back yields `ResultInvalid`. -/
theorem update_state_masked_merge (cs us : CompleteState)
    (mask : List String) (hne : mask ≠ []) :
    update_state cs us mask =
      match mergeViaMask (toObj us) (toObj cs) mask with
      | Except.error f => Except.error (UpdateStateError.FieldNotFound f)
      | Except.ok merged =>
          match completeStateOfObj merged with
          | some m => Except.ok m
          | none => Except.error (UpdateStateError.ResultInvalid msgCouldNotParse) := by
  unfold update_state
  rw [if_neg (by simpa using hne)]
  rw [updateStateLoop_eq_merge]
  cases mergeViaMask (toObj us) (toObj cs) mask with
  | ok v => rfl
  | error f => rfl

/-- C4 witness: the masked merge equation at a concrete replace-one-
workload update. -/
theorem update_state_masked_merge_witness :
    update_state csOld csUpd ["currentState.workloads.workload_1"] =
      match mergeViaMask (toObj csUpd) (toObj csOld)
          ["currentState.workloads.workload_1"] with
      | Except.error f => Except.error (UpdateStateError.FieldNotFound f)
      | Except.ok merged =>
          match completeStateOfObj merged with
          | some m => Except.ok m
          | none => Except.error (UpdateStateError.ResultInvalid msgCouldNotParse) :=
  update_state_masked_merge csOld csUpd ["currentState.workloads.workload_1"]
    (by decide)

theorem slookup_sinsert_self {α : Type} (fs : List (String × α)) (k : String)
    (v : α) : slookup (sinsert fs k v) k = some v := by
  induction fs with
  | nil => simp [sinsert, slookup]
  | cons p ps ih =>
      rw [sinsert]
      by_cases hp : p.1 = k
      · rw [if_pos hp, slookup, if_pos rfl]
      · rw [if_neg hp, slookup, if_neg hp]
        exact ih

theorem slookup_sinsert_other {α : Type} (fs : List (String × α))
    (k k2 : String) (v : α) (h : k2 ≠ k) :
    slookup (sinsert fs k v) k2 = slookup fs k2 := by
  induction fs with
  | nil => simp [sinsert, slookup, Ne.symm h]
  | cons p ps ih =>
      rw [sinsert]
      by_cases hp : p.1 = k
      · rw [if_pos hp, slookup, slookup]
        rw [if_neg (show ¬((k, v).1 = k2) from Ne.symm h)]
        rw [if_neg (show ¬(p.1 = k2) from hp ▸ Ne.symm h)]
      · rw [if_neg hp, slookup, slookup]
        by_cases hp2 : p.1 = k2
        · rw [if_pos hp2, if_pos hp2]
        · rw [if_neg hp2, if_neg hp2]
          exact ih

theorem sinsert_slookup_self {α : Type} {fs : List (String × α)} {k : String}
    {v : α} (h : slookup fs k = some v) : sinsert fs k v = fs := by
  induction fs with
  | nil => exact absurd h (by simp [slookup])
  | cons p ps ih =>
      rw [slookup] at h
      rw [sinsert]
      by_cases hp : p.1 = k
      · rw [if_pos hp] at h
        have h2 : v = p.2 := (Option.some.inj h).symm
        rw [if_pos hp, ← hp, h2]
      · rw [if_neg hp] at h
        rw [if_neg hp, ih h]

theorem list_set_self {α : Type} :
    ∀ (xs : List α) (i : Nat) (w : α), xs[i]? = some w → xs.set i w = xs := by
  intro xs
  induction xs with
  | nil => intro i w h; exact absurd h (by simp)
  | cons x xs2 ih =>
      intro i w h
      cases i with
      | zero =>
          simp only [List.getElem?_cons_zero] at h
          rw [List.set]
          rw [Option.some.inj h]
      | succ j =>
          simp only [List.getElem?_cons_succ] at h
          rw [List.set]
          rw [ih j w h]

theorem object_get_nil (v : Yval) : Object.get v [] = some v := by
  cases v <;> rfl

theorem object_get_append (q : List String) :
    ∀ (p : List String) (v : Yval),
      Object.get v (p ++ q) = (Object.get v p).bind fun w => Object.get w q := by
  intro p
  induction p with
  | nil =>
      intro v
      rw [List.nil_append, object_get_nil, Option.some_bind]
  | cons k ks ih =>
      intro v
      cases v with
      | str s => rfl
      | map fs =>
          rw [List.cons_append, Object.get, Object.get]
          cases slookup fs k with
          | none => rfl
          | some w => exact ih w
      | seq xs =>
          rw [List.cons_append, Object.get, Object.get]
          cases (strToIdx k).bind (fun i => xs[i]?) with
          | none => rfl
          | some w => exact ih w

/-- Writing back a value that is already at the path is the identity. -/
theorem object_set_self :
    ∀ (p : List String) (v u : Yval), p ≠ [] → Object.get v p = some u →
      Object.set v p u = some v := by
  intro p
  induction p with
  | nil => intro v u h; exact absurd rfl h
  | cons k ks ih =>
      intro v u _ hg
      cases v with
      | str s => exact absurd hg (by rw [Object.get]; simp)
      | map fs =>
          rw [Object.get] at hg
          cases hlk : slookup fs k with
          | none => rw [hlk] at hg; exact absurd hg (by simp)
          | some w =>
              rw [hlk] at hg
              simp only [Option.some_bind] at hg
              cases ks with
              | nil =>
                  rw [object_get_nil] at hg
                  rw [Object.set, ← Option.some.inj hg,
                    sinsert_slookup_self hlk]
              | cons k2 ks2 =>
                  simp only [Object.set, hlk]
                  rw [ih w u (by simp) hg]
                  simp only [Option.map_some']
                  rw [sinsert_slookup_self hlk]
      | seq xs =>
          rw [Object.get] at hg
          cases hix : (strToIdx k).bind (fun i => xs[i]?) with
          | none => rw [hix] at hg; exact absurd hg (by simp)
          | some w =>
              rw [hix] at hg
              simp only [Option.some_bind] at hg
              obtain ⟨i, hi, hw⟩ := Option.bind_eq_some.mp hix
              cases ks with
              | nil =>
                  rw [object_get_nil] at hg
                  simp only [Object.set, hi, Option.some_bind]
                  rw [if_pos (List.getElem?_eq_some.mp hw).1]
                  rw [← Option.some.inj hg, list_set_self xs i w hw]
              | cons k2 ks2 =>
                  simp only [Object.set, hi, Option.some_bind, hw]
                  rw [ih w u (by simp) hg]
                  simp only [Option.map_some']
                  rw [list_set_self xs i w hw]

/-- Reading inside a freshly created chain of nested mappings yields an
intermediate mapping or lands inside the written value. -/
theorem mkNested_get :
    ∀ (rem : List String) (u : Yval) (q : List String) (v : Yval),
      Object.get (Object.mkNested rem u) q = some v →
      (∃ fs, v = Yval.map fs) ∨
        ∃ tail, q = rem ++ tail ∧ Object.get u tail = some v := by
  intro rem
  induction rem with
  | nil =>
      intro u q v h
      exact Or.inr ⟨q, rfl, h⟩
  | cons k ks ih =>
      intro u q v h
      rw [Object.mkNested] at h
      cases q with
      | nil =>
          rw [object_get_nil] at h
          exact Or.inl ⟨_, (Option.some.inj h).symm⟩
      | cons k2 qs =>
          rw [Object.get] at h
          by_cases hk : k = k2
          · subst hk
            rw [slookup, if_pos rfl] at h
            simp only [Option.some_bind] at h
            rcases ih u qs v h with hmap | ⟨tail, htail, hu⟩
            · exact Or.inl hmap
            · exact Or.inr ⟨tail, by rw [htail, List.cons_append], hu⟩
          · rw [slookup, if_neg (show ¬((k, Object.mkNested ks u).1 = k2) from hk),
              slookup] at h
            exact absurd h (by simp)

theorem subdoc_empty (s : Yval) : SubDoc (Yval.map []) s := by
  intro p v h
  cases p with
  | nil =>
      rw [object_get_nil] at h
      exact Or.inl ⟨[], (Option.some.inj h).symm⟩
  | cons k ks =>
      rw [Object.get, slookup] at h
      exact absurd h (by simp)

/-- Writing a sub-tree of the source at its own path into a document
that is source-consistent succeeds and preserves consistency: this is
why the `return_state.set` calls of the projection loop cannot fail. -/
theorem object_set_subdoc :
    ∀ (p : List String) (r s u : Yval), p ≠ [] → SubDoc r s →
      Object.get s p = some u →
      ∃ r2, Object.set r p u = some r2 ∧ SubDoc r2 s := by
  intro p
  induction p with
  | nil => intro r s u h; exact absurd rfl h
  | cons k ks ih =>
      intro r s u _ hsub hg
      cases r with
      | str s0 =>
          have hs := hsub [] (Yval.str s0) (object_get_nil _)
          rcases hs with ⟨fs, hfs⟩ | hs2
          · exact absurd hfs (by simp)
          · rw [object_get_nil] at hs2
            have hseq : s = Yval.str s0 := Option.some.inj hs2
            subst hseq
            rw [Object.get] at hg
            exact absurd hg (by simp)
      | map fs =>
          cases ks with
          | nil =>
              refine ⟨Yval.map (sinsert fs k u), rfl, ?_⟩
              intro q v hq
              cases q with
              | nil =>
                  rw [object_get_nil] at hq
                  exact Or.inl ⟨_, (Option.some.inj hq).symm⟩
              | cons k2 qs =>
                  rw [Object.get] at hq
                  by_cases hk : k2 = k
                  · subst hk
                    rw [slookup_sinsert_self] at hq
                    simp only [Option.some_bind] at hq
                    right
                    rw [show (k2 :: qs) = [k2] ++ qs from rfl,
                      object_get_append, hg]
                    simpa using hq
                  · rw [slookup_sinsert_other fs k k2 u hk] at hq
                    exact hsub (k2 :: qs) v (by rw [Object.get]; exact hq)
          | cons k2 ks2 =>
              have hsk : ∃ s2, Object.get s [k] = some s2 ∧
                  Object.get s2 (k2 :: ks2) = some u := by
                have ha := object_get_append (k2 :: ks2) [k] s
                rw [show ([k] ++ (k2 :: ks2)) = k :: k2 :: ks2 from rfl] at ha
                rw [ha] at hg
                exact Option.bind_eq_some.mp hg
              obtain ⟨s2, hs2, hgu⟩ := hsk
              cases hlk : slookup fs k with
              | some w =>
                  have hsubw : SubDoc w s2 := by
                    intro q v hq
                    have hr : Object.get (Yval.map fs) (k :: q) = some v := by
                      rw [Object.get, hlk]
                      simpa using hq
                    rcases hsub (k :: q) v hr with hmap | hsg
                    · exact Or.inl hmap
                    · right
                      rw [show (k :: q) = [k] ++ q from rfl,
                        object_get_append, hs2] at hsg
                      simpa using hsg
                  obtain ⟨w2, hw2, hsubw2⟩ := ih w s2 u (by simp) hsubw hgu
                  refine ⟨Yval.map (sinsert fs k w2), ?_, ?_⟩
                  · simp only [Object.set, hlk, hw2, Option.map_some']
                  · intro q v hq
                    cases q with
                    | nil =>
                        rw [object_get_nil] at hq
                        exact Or.inl ⟨_, (Option.some.inj hq).symm⟩
                    | cons k3 qs =>
                        rw [Object.get] at hq
                        by_cases hk3 : k3 = k
                        · subst hk3
                          rw [slookup_sinsert_self] at hq
                          simp only [Option.some_bind] at hq
                          rcases hsubw2 qs v hq with hmap | hsg
                          · exact Or.inl hmap
                          · right
                            rw [show (k3 :: qs) = [k3] ++ qs from rfl,
                              object_get_append, hs2]
                            simpa using hsg
                        · rw [slookup_sinsert_other fs k k3 w2 hk3] at hq
                          exact hsub (k3 :: qs) v (by rw [Object.get]; exact hq)
              | none =>
                  refine ⟨Yval.map (sinsert fs k
                    (Object.mkNested (k2 :: ks2) u)), ?_, ?_⟩
                  · simp only [Object.set, hlk]
                  · intro q v hq
                    cases q with
                    | nil =>
                        rw [object_get_nil] at hq
                        exact Or.inl ⟨_, (Option.some.inj hq).symm⟩
                    | cons k3 qs =>
                        rw [Object.get] at hq
                        by_cases hk3 : k3 = k
                        · subst hk3
                          rw [slookup_sinsert_self] at hq
                          simp only [Option.some_bind] at hq
                          rcases mkNested_get (k2 :: ks2) u qs v hq with
                            hmap | ⟨tail, htail, hu⟩
                          · exact Or.inl hmap
                          · right
                            subst htail
                            rw [show (k3 :: ((k2 :: ks2) ++ tail)) =
                              (k3 :: k2 :: ks2) ++ tail from rfl,
                              object_get_append, hg]
                            simpa using hu
                        · rw [slookup_sinsert_other fs k k3 _ hk3] at hq
                          exact hsub (k3 :: qs) v (by rw [Object.get]; exact hq)
      | seq xs =>
          have hs := hsub [] (Yval.seq xs) (object_get_nil _)
          rcases hs with ⟨fs, hfs⟩ | hs2
          · exact absurd hfs (by simp)
          · rw [object_get_nil] at hs2
            have hseq : s = Yval.seq xs := Option.some.inj hs2
            subst hseq
            rw [Object.get] at hg
            cases hix : (strToIdx k).bind (fun i => xs[i]?) with
            | none =>
                rw [hix] at hg
                exact absurd hg (by simp)
            | some w =>
                rw [hix] at hg
                simp only [Option.some_bind] at hg
                obtain ⟨i, hi, hw⟩ := Option.bind_eq_some.mp hix
                cases ks with
                | nil =>
                    rw [object_get_nil] at hg
                    refine ⟨Yval.seq xs, ?_, hsub⟩
                    simp only [Object.set, hi, Option.some_bind]
                    rw [if_pos (List.getElem?_eq_some.mp hw).1]
                    rw [show u = w from (Option.some.inj hg).symm,
                      list_set_self xs i w hw]
                | cons k2 ks2 =>
                    refine ⟨Yval.seq xs, ?_, hsub⟩
                    simp only [Object.set, hi, Option.some_bind, hw]
                    rw [object_set_self (k2 :: ks2) w u (by simp) hg]
                    simp only [Option.map_some']
                    rw [list_set_self xs i w hw]

/-- The projection loop of `get_complete_state_by_field_mask` never
fails on a source-consistent accumulator: it computes exactly the
spec-side total projection. -/
theorem projLoop_eq_projectMask (source : Yval) :
    ∀ (mask : List String) (acc : Yval), SubDoc acc source →
      projLoop source acc mask = Except.ok (projectMask source acc mask) := by
  intro mask
  induction mask with
  | nil => intro acc _; rfl
  | cons f fs ih =>
      intro acc hsub
      simp only [projLoop, projectMask]
      cases hget : Object.getTop source (pathOfString f) with
      | none => exact ih acc hsub
      | some v =>
          have hne : pathOfString f ≠ [] := by
            intro he
            rw [he] at hget
            exact Option.noConfusion hget
          have hgs : Object.get source (pathOfString f) = some v := by
            cases hp : pathOfString f with
            | nil => exact absurd hp hne
            | cons a as =>
                rw [hp] at hget
                exact hget
          obtain ⟨acc2, hset, hsub2⟩ :=
            object_set_subdoc (pathOfString f) acc source v hne hsub hgs
          simp only [hset, Option.getD_some]
          exact ih acc2 hsub2

/-- C5: with a non-empty field mask, `get_complete_state_by_field_mask`
renders the view `{current_state, startup_state, workload_states}` as a
structured document and copies exactly the masked paths that are
present into the result, silently skipping absent paths (copying a
present path never fails), and the call returns an error string exactly
when the assembled projection does not parse back into a valid
`CompleteState`. -/
theorem get_complete_state_masked_projection (ss : ServerState)
    (mask : List String) (db : List WorkloadState) (hne : mask ≠ []) :
    ss.get_complete_state_by_field_mask mask db =
      match completeStateOfObj (projectMask
          (toObj ⟨ss.state.currentState, ss.state.startupState, db⟩)
          (Yval.map []) mask) with
      | some cs => Except.ok cs
      | none => Except.error msgResultInvalid := by
  unfold ServerState.get_complete_state_by_field_mask
  rw [if_neg (by simpa using hne)]
  rw [projLoop_eq_projectMask _ mask (Yval.map []) (subdoc_empty _)]

/-- C5 witness: the projection equation at a mask with one present and
one absent path. -/
theorem get_complete_state_masked_projection_witness :
    ssOld.get_complete_state_by_field_mask
        ["currentState.workloads.workload_1", "workloads.invalidMask"] [] =
      match completeStateOfObj (projectMask
          (toObj ⟨csOld.currentState, csOld.startupState, []⟩) (Yval.map [])
          ["currentState.workloads.workload_1", "workloads.invalidMask"]) with
      | some cs => Except.ok cs
      | none => Except.error msgResultInvalid :=
  get_complete_state_masked_projection ssOld
    ["currentState.workloads.workload_1", "workloads.invalidMask"] []
    (by decide)

end Ankaios
